import Mathlib

/-!
Shallow embedding of the beat-grid engine of the `beat-grid` repository
(`src/backend/beat_detector.py`, `src/backend/structure_analyzer.py`,
`src/backend/app.py`).  Times, offsets and multipliers are modelled as
rationals; Python lists as `List ℚ`; Python code paths that raise
(`IndexError` on `beats[-1]` of an empty list, `ZeroDivisionError`,
slicing with step 0) are modelled with `Option`.
-/

namespace BeatGrid

/-- Python's `int(...)` conversion on a rational: truncation toward zero. -/
def pyInt (q : ℚ) : ℤ := if 0 ≤ q then ⌊q⌋ else ⌈q⌉

/-- Python list slicing `l[::step]` for a positive step: elements at
indices `0, step, 2*step, ...`. -/
def sliceStep (step : ℕ) : List ℚ → List ℚ
  | [] => []
  | a :: rest => a :: sliceStep step (rest.drop (step - 1))
termination_by l => l.length
decreasing_by
  simp only [List.length_drop, List.length_cons]
  omega

/-- Interpolation loop of `adjust_beats` for `bpm_multiplier > 1.0`
(`beat_detector.py` lines 158-166): for each consecutive pair append the
left beat and `int(m) - 1` interpolated points
`beats[i] + (beats[i+1] - beats[i]) * (j / m)` for `j = 1 .. int(m)-1`,
then append the final beat. -/
def densifyLoop (bs : List ℚ) (m : ℚ) : List ℚ :=
  ((List.range (bs.length - 1)).map (fun i =>
      bs.getD i 0 ::
        (List.range ((pyInt m).toNat - 1)).map (fun (j : ℕ) =>
          bs.getD i 0 + (bs.getD (i + 1) 0 - bs.getD i 0) * (((j : ℚ) + 1) / m)))).flatten
    ++ [bs.getLast?.getD 0]

/-- Embedding of `BeatDetector.adjust_beats` (`beat_detector.py` lines 138-172).
Applies the offset, then the multiplier branch (interpolation for
`m > 1`, stride decimation for `m < 1`, identity for `m = 1`), then the
final non-negativity filter `[float(b) for b in beats if b >= 0]`.
`none` models a Python exception: `beats[-1]` on an empty list for
`m > 1`, `1.0/m` for `m = 0`, and slice step 0. -/
def adjust_beats (beats : List ℚ) (offset : ℚ) (bpm_multiplier : ℚ) : Option (List ℚ) :=
  let bs := beats.map (fun b => b + offset)
  if bpm_multiplier = 1 then
    some (bs.filter (fun b => decide (0 ≤ b)))
  else if 1 < bpm_multiplier then
    if bs.isEmpty then none
    else some ((densifyLoop bs bpm_multiplier).filter (fun b => decide (0 ≤ b)))
  else if bpm_multiplier = 0 then none
  else
    let step := pyInt (1 / bpm_multiplier)
    if 0 < step then
      some ((sliceStep step.toNat bs).filter (fun b => decide (0 ≤ b)))
    else if step = 0 then none
    else some ((sliceStep (-step).toNat bs.reverse).filter (fun b => decide (0 ≤ b)))

/-- One element of the click track returned by
`generate_click_track_times`: a dict `{'time': ..., 'accent': ...}`. -/
structure ClickEvent where
  time : ℚ
  accent : Bool
deriving DecidableEq, Repr

/-- Embedding of `BeatDetector.generate_click_track_times` (`beat_detector.py` lines
174-195): one event per beat, accented iff some downbeat lies within
0.01 s.  Membership in the Python `set(downbeats)` is existence in the
list, so the set is modelled by the list itself. -/
def generate_click_track_times (beats : List ℚ) (downbeats : List ℚ) : List ClickEvent :=
  beats.map (fun beat =>
    { time := beat
      accent := downbeats.any (fun db => decide (|beat - db| < 1 / 100)) })

/-! ### Helper lemmas about the slicing and interpolation primitives -/

/-- Slicing with step 1 returns the list unchanged. -/
theorem sliceStep_one (l : List ℚ) : sliceStep 1 l = l := by
  induction l with
  | nil => simp [sliceStep]
  | cons a t ih => simp [sliceStep, ih]

/-- Every element produced by positive-step slicing comes from the input list. -/
theorem sliceStep_subset (s : ℕ) : ∀ (l : List ℚ), ∀ x ∈ sliceStep s l, x ∈ l := by
  intro l
  induction l using sliceStep.induct s with
  | case1 => intro x hx; simp [sliceStep] at hx
  | case2 a rest ih =>
    intro x hx
    rw [sliceStep] at hx
    rcases List.mem_cons.mp hx with h | h
    · simp [h]
    · exact List.mem_cons_of_mem a (List.mem_of_mem_drop (ih x h))

/-- Length of a positive-step slice: `⌈n / s⌉` computed as `(n + s - 1) / s`. -/
theorem sliceStep_length (s : ℕ) (hs : 1 ≤ s) :
    ∀ (l : List ℚ), (sliceStep s l).length = (l.length + s - 1) / s := by
  intro l
  induction l using sliceStep.induct s with
  | case1 =>
    simp [sliceStep, Nat.div_eq_of_lt (show s - 1 < s by omega)]
  | case2 a rest ih =>
    rw [sliceStep]
    simp only [List.length_cons, ih, List.length_drop]
    rcases le_or_lt (s - 1) rest.length with h | h
    · have h1 : rest.length - (s - 1) + s - 1 = rest.length := by omega
      have h2 : rest.length + 1 + s - 1 = rest.length + s := by omega
      rw [h1, h2, Nat.add_div_right _ (by omega)]
    · have h1 : rest.length - (s - 1) + s - 1 = s - 1 := by omega
      have h2 : rest.length + 1 + s - 1 = rest.length + s := by omega
      rw [h1, h2, Nat.div_eq_of_lt (show s - 1 < s by omega),
        Nat.add_div_right _ (by omega),
        Nat.div_eq_of_lt (show rest.length < s by omega)]

/-- Indexing a positive-step slice: element `i` of the slice is element
`s * i` of the input. -/
theorem sliceStep_getElem? (s : ℕ) (hs : 1 ≤ s) :
    ∀ (l : List ℚ) (i : ℕ), (sliceStep s l)[i]? = l[s * i]? := by
  intro l
  induction l using sliceStep.induct s with
  | case1 => intro i; simp [sliceStep]
  | case2 a rest ih =>
    intro i
    rw [sliceStep]
    match i with
    | 0 => simp
    | i + 1 =>
      have harith : s - 1 + s * i = s * (i + 1) - 1 := by
        cases s with
        | zero => omega
        | succ t => ring_nf; omega
      simp only [List.getElem?_cons_succ, ih, List.getElem?_drop, harith]
      have : s * (i + 1) - 1 + 1 = s * (i + 1) := by
        have : 1 ≤ s * (i + 1) := Nat.one_le_iff_ne_zero.mpr (by positivity)
        omega
      rw [show rest[s * (i+1) - 1]? = (a :: rest)[s * (i+1) - 1 + 1]? by simp, this]

/-! ### C2 — offset 0, multiplier 1 -/

/-- Claim C2 as stated is false: with a negative beat time the final
`b >= 0` filter of `adjust_beats` removes the entry, so the function is
not the identity on every input list. -/
theorem adjust_beats_identity_counterexample :
    adjust_beats [-1] 0 1 ≠ some [-1] := by
  norm_num [adjust_beats]

/-- Claim C2 (amended): for beat lists whose entries are all non-negative,
`adjust_beats` with offset 0 and multiplier 1 is the identity. -/
theorem adjust_beats_identity_nonneg (beats : List ℚ)
    (h : ∀ b ∈ beats, 0 ≤ b) :
    adjust_beats beats 0 1 = some beats := by
  have hmap : beats.map (fun b => b + 0) = beats := by simp
  have hfilter : beats.filter (fun b => decide (0 ≤ b)) = beats :=
    List.filter_eq_self.mpr (fun b hb => by simpa using h b hb)
  simp [adjust_beats, hmap, hfilter]

/-- Witness for the amended C2 at the concrete input `[0, 1]`. -/
theorem adjust_beats_identity_nonneg_witness :
    adjust_beats [0, 1] 0 1 = some [0, 1] :=
  adjust_beats_identity_nonneg [0, 1] (by norm_num)

/-! ### C3 — the offset example of the spec -/

/-- Claim C3 as stated is false: `adjust_beats [1,2,3]` with offset `-1.5`
does not return `[0, 0.5, 1.5]` (the shift of 1.0 is `-0.5`, not `0`). -/
theorem adjust_beats_example_counterexample :
    adjust_beats [1, 2, 3] (-(3 / 2)) 1 ≠ some [0, 1 / 2, 3 / 2] := by
  norm_num [adjust_beats]

/-- Claim C3 (amended): `adjust_beats [1,2,3]` with offset `-1.5` and
multiplier 1 returns `[0.5, 1.5]`; the first shifted value `-0.5` is
dropped by the negative-time filter. -/
theorem adjust_beats_offset_example :
    adjust_beats [1, 2, 3] (-(3 / 2)) 1 = some [1 / 2, 3 / 2] := by
  norm_num [adjust_beats]

/-! ### C4 — offset linearity with the negative-time filter -/

/-- Claim C4: with multiplier 1, `adjust_beats` returns, in input order,
exactly the shifted values `b + o` that are non-negative. -/
theorem adjust_beats_offset_linearity (beats : List ℚ) (o : ℚ) :
    adjust_beats beats o 1 =
      some ((beats.map (fun b => b + o)).filter (fun b => decide (0 ≤ b))) := by
  simp [adjust_beats]

/-! ### C10 — multipliers strictly between 0.5 and 1 do not decimate -/

/-- Claim C10: for `0.5 < m < 1` the computed stride `int(1/m)` equals 1,
so `adjust_beats` with such a multiplier agrees with multiplier 1. -/
theorem adjust_beats_mult_between_half_and_one (beats : List ℚ) (m : ℚ)
    (h1 : 1 / 2 < m) (h2 : m < 1) :
    adjust_beats beats 0 m = adjust_beats beats 0 1 := by
  have hm0 : 0 < m := lt_trans (by norm_num) h1
  have hne1 : m ≠ 1 := ne_of_lt h2
  have hnotgt : ¬ (1 < m) := not_lt.mpr h2.le
  have hne0 : m ≠ 0 := ne_of_gt hm0
  have hinv1 : (1 : ℚ) ≤ 1 / m := by
    rw [le_div_iff₀ hm0]; linarith
  have hinv2 : 1 / m < 2 := by
    rw [div_lt_iff₀ hm0]; linarith
  have hfloor : ⌊(m⁻¹ : ℚ)⌋ = 1 := by
    rw [Int.floor_eq_iff, ← one_div]
    push_cast
    exact ⟨hinv1, by linarith⟩
  have hpy : pyInt m⁻¹ = 1 := by
    rw [pyInt, if_pos (by positivity), hfloor]
  simp [adjust_beats, hne1, hnotgt, hne0, hpy, sliceStep_one]

/-- Witness for C10 at the concrete input `[0, 1]`, multiplier `3/4`. -/
theorem adjust_beats_mult_between_half_and_one_witness :
    adjust_beats [0, 1] 0 (3 / 4) = adjust_beats [0, 1] 0 1 :=
  adjust_beats_mult_between_half_and_one [0, 1] (3 / 4) (by norm_num) (by norm_num)

/-! ### C5 — multiplier 0.5 decimation -/

/-- Claim C5 as stated is false: with a negative beat time the final
`b >= 0` filter removes entries after the stride-2 decimation, so the
output is neither the stride-2 selection nor of length `ceil(n/2)`. -/
theorem adjust_beats_decimation_counterexample :
    ¬ (adjust_beats [-1, 2] 0 (1 / 2) = some (sliceStep 2 [-1, 2]) ∧
       (adjust_beats [-1, 2] 0 (1 / 2)).map List.length =
         some (([(-1 : ℚ), 2].length + 1) / 2)) := by
  have hval : adjust_beats [-1, 2] 0 (1 / 2) = some [] := by
    simp only [adjust_beats, pyInt]
    norm_num
    simp [sliceStep]
  rintro ⟨-, h2⟩
  rw [hval] at h2
  simp at h2

/-- Claim C5 (amended): for beat lists whose entries are all non-negative,
`adjust_beats` with offset 0 and multiplier 0.5 returns the elements at
stride 2 starting at index 0, of length `ceil(n/2) = (n+1)/2`. -/
theorem adjust_beats_decimation_nonneg (beats : List ℚ)
    (h : ∀ b ∈ beats, 0 ≤ b) :
    adjust_beats beats 0 (1 / 2) = some (sliceStep 2 beats) ∧
    (sliceStep 2 beats).length = (beats.length + 1) / 2 := by
  constructor
  · have hmap : beats.map (fun b => b + 0) = beats := by simp
    have hfilter : (sliceStep 2 beats).filter (fun b => decide (0 ≤ b)) =
        sliceStep 2 beats :=
      List.filter_eq_self.mpr
        (fun b hb => by simpa using h b (sliceStep_subset 2 beats b hb))
    simp only [adjust_beats, hmap]
    norm_num [pyInt]
    rw [show Int.toNat 2 = 2 from rfl, hfilter]
  · rw [sliceStep_length 2 (by norm_num)]
    congr 1

/-- Witness for the amended C5 at the concrete input `[0, 1, 2]`. -/
theorem adjust_beats_decimation_nonneg_witness :
    adjust_beats [0, 1, 2] 0 (1 / 2) = some (sliceStep 2 [0, 1, 2]) ∧
    (sliceStep 2 [(0 : ℚ), 1, 2]).length = ([(0 : ℚ), 1, 2].length + 1) / 2 :=
  adjust_beats_decimation_nonneg [0, 1, 2] (by norm_num)

/-! ### C1 — click-track generation -/

/-- Claim C1: the click track has exactly one event per input beat, in
input order, and an event is accented iff some downbeat lies strictly
within 0.01 s of the corresponding beat. -/
theorem generate_click_track_spec (beats downbeats : List ℚ) :
    (generate_click_track_times beats downbeats).length = beats.length ∧
    ∀ i, i < beats.length →
      ((generate_click_track_times beats downbeats).getD i ⟨0, false⟩).time =
        beats.getD i 0 ∧
      (((generate_click_track_times beats downbeats).getD i ⟨0, false⟩).accent = true ↔
        ∃ db ∈ downbeats, |beats.getD i 0 - db| < 1 / 100) := by
  refine ⟨by simp [generate_click_track_times], ?_⟩
  intro i hi
  have hb : beats.getD i 0 = beats[i] := List.getD_eq_getElem beats 0 hi
  have hclick : (generate_click_track_times beats downbeats).getD i ⟨0, false⟩ =
      { time := beats[i]
        accent := downbeats.any (fun db => decide (|beats[i] - db| < 1 / 100)) } := by
    rw [generate_click_track_times, List.getD_eq_getElem?_getD, List.getElem?_map,
      List.getElem?_eq_getElem hi]
    rfl
  rw [hclick, hb]
  exact ⟨rfl, by simp⟩

/-- Witness for C1: with beat list `[1]` and downbeat list `[1]` the
single event is accented. -/
theorem generate_click_track_spec_witness :
    ((generate_click_track_times [1] [1]).getD 0 ⟨0, false⟩).accent = true :=
  ((generate_click_track_spec [1] [1]).2 0 (by norm_num)).2.mpr
    ⟨1, by simp, by norm_num⟩

/-! ### C6 — multiplier > 1 interpolation -/

/-- Densified beat list as described by claim C6: between each consecutive
pair of beats, `floor(m) - 1` linearly interpolated points at fractional
positions `j/m` of the gap for `j = 1 .. floor(m) - 1`, preserving the
original beats in order, with the last input beat appended unchanged. -/
def densifyClaim (bs : List ℚ) (m : ℚ) : List ℚ :=
  ((List.range (bs.length - 1)).map (fun i =>
      bs.getD i 0 ::
        (List.range (⌊m⌋.toNat - 1)).map (fun (j : ℕ) =>
          bs.getD i 0 + (bs.getD (i + 1) 0 - bs.getD i 0) * (((j : ℚ) + 1) / m)))).flatten
    ++ [bs.getLast?.getD 0]

/-- Defaulted indexing of an all-non-negative list is non-negative. -/
theorem getD_nonneg_of_forall (bs : List ℚ) (h : ∀ b ∈ bs, 0 ≤ b) (i : ℕ) :
    0 ≤ bs.getD i 0 := by
  rcases lt_or_ge i bs.length with hi | hi
  · rw [List.getD_eq_getElem bs 0 hi]
    exact h _ (List.getElem_mem hi)
  · rw [List.getD_eq_default bs 0 hi]

/-- With `m > 1` and non-negative beats, every densified value is
non-negative: interpolated points are convex combinations of adjacent
beats, so the final `b >= 0` filter drops nothing. -/
theorem densifyClaim_nonneg (bs : List ℚ) (m : ℚ) (hm : 1 < m)
    (h : ∀ b ∈ bs, 0 ≤ b) : ∀ x ∈ densifyClaim bs m, 0 ≤ x := by
  intro x hx
  have hg := getD_nonneg_of_forall bs h
  have hm0 : (0 : ℚ) < m := by linarith
  rw [densifyClaim, List.mem_append] at hx
  rcases hx with hx | hx
  · rw [List.mem_flatten] at hx
    obtain ⟨blk, hblk, hxblk⟩ := hx
    rw [List.mem_map] at hblk
    obtain ⟨i, hi, rfl⟩ := hblk
    rcases List.mem_cons.mp hxblk with rfl | hxi
    · exact hg i
    · rw [List.mem_map] at hxi
      obtain ⟨j, hj, rfl⟩ := hxi
      have hjn := List.mem_range.mp hj
      have hfl1 : 1 ≤ ⌊m⌋ := Int.le_floor.mpr (by exact_mod_cast hm.le)
      have hj2 : j + 2 ≤ ⌊m⌋.toNat := by omega
      have hcast : ((⌊m⌋.toNat : ℕ) : ℚ) ≤ m := by
        rw [show ((⌊m⌋.toNat : ℕ) : ℚ) = ((⌊m⌋ : ℤ) : ℚ) by
          exact_mod_cast congrArg (fun z : ℤ => (z : ℚ)) (Int.toNat_of_nonneg (by omega))]
        exact Int.floor_le m
      have hjq : (j : ℚ) + 2 ≤ ((⌊m⌋.toNat : ℕ) : ℚ) := by exact_mod_cast hj2
      have ht0 : 0 ≤ ((j : ℚ) + 1) / m := by positivity
      have ht1 : ((j : ℚ) + 1) / m ≤ 1 := by
        rw [div_le_one hm0]; linarith
      have key : 0 ≤ bs.getD i 0 * (1 - ((j : ℚ) + 1) / m) +
          bs.getD (i + 1) 0 * (((j : ℚ) + 1) / m) :=
        add_nonneg (mul_nonneg (hg i) (by linarith)) (mul_nonneg (hg (i + 1)) ht0)
      exact le_of_le_of_eq key (by ring)
  · rw [List.mem_singleton] at hx
    subst hx
    cases hl : bs.getLast? with
    | none => simp
    | some a =>
      simpa using h a (List.mem_of_mem_getLast? hl)

/-- Claim C6: for at least two non-negative beats and multiplier `m > 1`,
`adjust_beats` returns exactly the densified list (original beats in
order with `floor(m) - 1` interpolated points per gap), whose last
element is the unchanged last input beat. -/
theorem adjust_beats_densify_spec (beats : List ℚ) (m : ℚ)
    (hlen : 2 ≤ beats.length) (hpos : ∀ b ∈ beats, 0 ≤ b) (hm : 1 < m) :
    adjust_beats beats 0 m = some (densifyClaim beats m) ∧
    (densifyClaim beats m).getLast? = beats.getLast? := by
  have hne : beats ≠ [] := by
    intro hnil; rw [hnil] at hlen; simp at hlen
  have hmap : beats.map (fun b => b + 0) = beats := by simp
  have hne1 : m ≠ 1 := ne_of_gt hm
  have hloop : densifyLoop beats m = densifyClaim beats m := by
    rw [densifyLoop, densifyClaim, pyInt, if_pos (by linarith : (0 : ℚ) ≤ m)]
  have hfilter : (densifyClaim beats m).filter (fun b => decide (0 ≤ b)) =
      densifyClaim beats m :=
    List.filter_eq_self.mpr
      (fun b hb => by simpa using densifyClaim_nonneg beats m hm hpos b hb)
  constructor
  · simp only [adjust_beats, hmap]
    rw [if_neg hne1, if_pos hm,
      if_neg (by simp [hne] : ¬ beats.isEmpty = true), hloop, hfilter]
  · rw [densifyClaim, List.getLast?_concat,
      List.getLast?_eq_getLast_of_ne_nil hne]
    rfl

/-- Witness for C6 at the concrete input `[0, 1]` with multiplier `5/2`. -/
theorem adjust_beats_densify_spec_witness :
    adjust_beats [0, 1] 0 (5 / 2) = some (densifyClaim [0, 1] (5 / 2)) ∧
    (densifyClaim [(0 : ℚ), 1] (5 / 2)).getLast? = [(0 : ℚ), 1].getLast? :=
  adjust_beats_densify_spec [0, 1] (5 / 2) (by norm_num) (by norm_num) (by norm_num)

/-! ### C8 — explicit beat update -/

/-- Explicit-beats branch of the `update_beats` endpoint (`app.py` lines
198-202): store the new beats, recompute downbeats as `data['beats'][::4]`
and beat numbers as `[(i % 4) + 1 for i in range(len(data['beats']))]`. -/
def update_beats_explicit (newBeats : List ℚ) : List ℚ × List ℚ × List ℕ :=
  (newBeats, sliceStep 4 newBeats,
    (List.range newBeats.length).map (fun i => i % 4 + 1))

/-- Claim C8: the recomputed downbeats are exactly every 4th beat starting
at index 0 (element `i` of the downbeats is element `4*i` of the beats,
and there are `ceil(n/4)` of them), the beat numbers cycle 1,2,3,4 over
the beats in order, and the concrete example of the spec holds. -/
theorem update_beats_spec (newBeats : List ℚ) :
    (update_beats_explicit newBeats).2.1.length = (newBeats.length + 3) / 4 ∧
    (∀ i : ℕ, (update_beats_explicit newBeats).2.1[i]? = newBeats[4 * i]?) ∧
    (∀ i : ℕ, (update_beats_explicit newBeats).2.2[i]? =
      if i < newBeats.length then some (i % 4 + 1) else none) ∧
    update_beats_explicit [1, 2, 3, 4, 5, 6, 7, 8] =
      ([1, 2, 3, 4, 5, 6, 7, 8], [1, 5], [1, 2, 3, 4, 1, 2, 3, 4]) := by
  refine ⟨?_, ?_, ?_, ?_⟩
  · have := sliceStep_length 4 (by norm_num) newBeats
    simpa [update_beats_explicit] using this
  · intro i
    simpa [update_beats_explicit] using sliceStep_getElem? 4 (by norm_num) newBeats i
  · intro i
    simp only [update_beats_explicit]
    rcases lt_or_ge i newBeats.length with h | h
    · rw [List.getElem?_map, if_pos h, List.getElem?_range h]
      rfl
    · rw [List.getElem?_map, if_neg (not_lt.mpr h),
        List.getElem?_eq_none (by simpa using h)]
      rfl
  · norm_num [update_beats_explicit, Prod.ext_iff, sliceStep, List.range_succ]

/-! ### C7 — structural segmentation contiguity -/

/-- One entry of the `sections` list built by `analyze_structure` or
`detect_energy_sections` (`structure_analyzer.py`): a dict with keys
`start`, `end`, `label`, `color`. -/
structure Section where
  start : ℚ
  end_ : ℚ
  label : String
  color : String
deriving DecidableEq, Repr

/-- Default section used when indexing with `getD`. -/
def dfltSection : Section where
  start := 0
  end_ := 0
  label := ""
  color := ""

/-- Embedding of the `StructureAnalyzer.SECTION_COLORS` lookup (`structure_analyzer.py`
lines 18-28). -/
def SECTION_COLORS (label : String) : Option String :=
  if label = "intro" then some "#4CAF50"
  else if label = "verse" then some "#2196F3"
  else if label = "chorus" then some "#FF9800"
  else if label = "bridge" then some "#9C27B0"
  else if label = "outro" then some "#607D8B"
  else if label = "breakdown" then some "#00BCD4"
  else if label = "buildup" then some "#FFEB3B"
  else if label = "drop" then some "#F44336"
  else if label = "unknown" then some "#9E9E9E"
  else none

/-- Color of the "unknown" label, the default of every
`SECTION_COLORS.get(label, SECTION_COLORS['unknown'])` lookup. -/
def unknown_color : String := "#9E9E9E"

/-- Lookup `self.SECTION_COLORS.get(label, self.SECTION_COLORS['unknown'])`. -/
def section_color (label : String) : String :=
  (SECTION_COLORS label).getD unknown_color

/-- Frame-to-time conversion `librosa.frames_to_time` for a single frame index: `f * hop / sr`
(hop length and sample rate as parameters of the embedding). -/
def frames_to_time (sr hop : ℚ) (f : ℕ) : ℚ := (f : ℚ) * hop / sr

/-- Boundary frames of the primary agglomerative path
(`structure_analyzer.py` line 79): `np.concatenate([[0], bounds,
[features.shape[1]]])`, with `bounds` the collaborator's output. -/
def primary_bound_frames (bounds : List ℕ) (nFrames : ℕ) : List ℕ :=
  0 :: (bounds ++ [nFrames])

/-- Boundary frames of the uniform fallback (`structure_analyzer.py`
line 82): `np.linspace(0, features.shape[1], num_sections + 1)
.astype(int)`, i.e. `floor(i * nFrames / num_sections)` for
`i = 0 .. num_sections`. -/
def fallback_bound_frames (nFrames num_sections : ℕ) : List ℕ :=
  (List.range (num_sections + 1)).map (fun i => i * nFrames / num_sections)

/-- Section list built from boundary times (`structure_analyzer.py` lines
92-99): section `i` spans `bound_times[i] .. bound_times[i+1]` and takes
label `labels[i]` with its color. -/
def build_sections (bound_times : List ℚ) (labels : ℕ → String) : List Section :=
  (List.range (bound_times.length - 1)).map (fun i =>
    { start := bound_times.getD i 0
      end_ := bound_times.getD (i + 1) 0
      label := labels i
      color := section_color (labels i) })

/-- Section construction of `StructureAnalyzer.analyze_structure`
(`structure_analyzer.py` lines 76-99).  The collaborator outputs are
parameters: `agglomerative = some bounds` is the primary path,
`none` the uniform fallback; `labels` is the `_label_segments` output. -/
def analyze_structure (sr hop : ℚ) (nFrames num_sections : ℕ)
    (agglomerative : Option (List ℕ)) (labels : ℕ → String) : List Section :=
  let bound_frames :=
    match agglomerative with
    | some bounds => primary_bound_frames bounds nFrames
    | none => fallback_bound_frames nFrames num_sections
  build_sections (bound_frames.map (frames_to_time sr hop)) labels

/-- Defaulted indexing of a mapped range below the bound. -/
theorem getD_map_range {α : Type} (n i : ℕ) (h : i < n) (g : ℕ → α) (d : α) :
    ((List.range n).map g).getD i d = g i := by
  rw [List.getD_eq_getElem?_getD, List.getElem?_map, List.getElem?_range h]
  rfl

/-- Last element of a nonempty mapped range. -/
theorem map_range_getLast? {α : Type} (n : ℕ) (h : 1 ≤ n) (g : ℕ → α) :
    ((List.range n).map g).getLast? = some (g (n - 1)) := by
  obtain ⟨k, rfl⟩ : ∃ k, n = k + 1 := ⟨n - 1, by omega⟩
  rw [List.range_succ, List.map_append]
  simp [List.getLast?_concat]

/-- Defaulted indexing at the last position agrees with `getLast?`. -/
theorem getD_last_of_getLastEq {l : List ℚ} {a : ℚ} (h : l.getLast? = some a) :
    l.getD (l.length - 1) 0 = a := by
  have hne : l ≠ [] := by
    intro hnil; rw [hnil] at h; simp at h
  have h1 : l.length - 1 < l.length := by
    have := List.length_pos.mpr hne
    omega
  rw [List.getD_eq_getElem l 0 h1]
  have h2 := List.getLast?_eq_getElem? l
  rw [h, List.getElem?_eq_getElem h1] at h2
  exact (Option.some.inj h2).symm

/-- Contiguity facts about `build_sections` over any boundary-frame list
that starts at frame 0 and ends at frame `nF`. -/
theorem build_sections_facts (sr hop : ℚ) (bf : List ℕ) (labels : ℕ → String)
    (nF : ℕ) (hlen : 2 ≤ bf.length) (hhead : bf.getD 0 0 = 0)
    (hlast : bf.getLast? = some nF) :
    build_sections (bf.map (frames_to_time sr hop)) labels ≠ [] ∧
    ((build_sections (bf.map (frames_to_time sr hop)) labels).getD 0 dfltSection).start = 0 ∧
    (∀ i, i + 1 < (build_sections (bf.map (frames_to_time sr hop)) labels).length →
      ((build_sections (bf.map (frames_to_time sr hop)) labels).getD i dfltSection).end_ =
        ((build_sections (bf.map (frames_to_time sr hop)) labels).getD (i + 1) dfltSection).start) ∧
    ((build_sections (bf.map (frames_to_time sr hop)) labels).getLast?.getD dfltSection).end_ =
      frames_to_time sr hop nF := by
  have hblen : (bf.map (frames_to_time sr hop)).length = bf.length :=
    List.length_map bf _
  have hn2 : 2 ≤ (bf.map (frames_to_time sr hop)).length := by omega
  have hslen : (build_sections (bf.map (frames_to_time sr hop)) labels).length =
      (bf.map (frames_to_time sr hop)).length - 1 := by
    simp [build_sections]
  have hd0 : (bf.map (frames_to_time sr hop)).getD 0 0 = 0 := by
    rcases bf with _ | ⟨a, t⟩
    · simp at hlen
    · have ha : a = 0 := by simpa using hhead
      subst ha
      simp [frames_to_time]
  have hl : (bf.map (frames_to_time sr hop)).getLast? =
      some (frames_to_time sr hop nF) := by
    rw [List.getLast?_map, hlast]
    rfl
  have hdlast : (bf.map (frames_to_time sr hop)).getD
      ((bf.map (frames_to_time sr hop)).length - 1) 0 = frames_to_time sr hop nF :=
    getD_last_of_getLastEq hl
  refine ⟨?_, ?_, ?_, ?_⟩
  · intro hnil
    rw [hnil] at hslen
    simp at hslen
    omega
  · rw [build_sections, getD_map_range _ 0 (by omega), hd0]
  · intro i hi
    rw [hslen] at hi
    rw [build_sections, getD_map_range _ i (by omega), getD_map_range _ (i + 1) (by omega)]
  · rw [build_sections, map_range_getLast? _ (by omega)]
    have harith : (bf.map (frames_to_time sr hop)).length - 1 - 1 + 1 =
        (bf.map (frames_to_time sr hop)).length - 1 := by omega
    simp only [Option.getD_some, harith, hdlast]

/-- Claim C7: for both the primary agglomerative path and the uniform
fallback, `analyze_structure` returns a contiguous partition: the first
section starts at 0, each section's end is the next section's start, and
the last section's end is `frames_to_time(nFrames)`, hence within the
given floating tolerance of the track duration. -/
theorem analyze_structure_contiguous (sr hop : ℚ) (nFrames num_sections : ℕ)
    (agg : Option (List ℕ)) (labels : ℕ → String) (duration tol : ℚ)
    (hk : 1 ≤ num_sections)
    (hdur : |frames_to_time sr hop nFrames - duration| ≤ tol) :
    analyze_structure sr hop nFrames num_sections agg labels ≠ [] ∧
    ((analyze_structure sr hop nFrames num_sections agg labels).getD 0 dfltSection).start = 0 ∧
    (∀ i, i + 1 < (analyze_structure sr hop nFrames num_sections agg labels).length →
      ((analyze_structure sr hop nFrames num_sections agg labels).getD i dfltSection).end_ =
        ((analyze_structure sr hop nFrames num_sections agg labels).getD (i + 1) dfltSection).start) ∧
    |((analyze_structure sr hop nFrames num_sections agg labels).getLast?.getD dfltSection).end_ -
        duration| ≤ tol := by
  have key : ∀ bf : List ℕ, 2 ≤ bf.length → bf.getD 0 0 = 0 →
      bf.getLast? = some nFrames →
      build_sections (bf.map (frames_to_time sr hop)) labels ≠ [] ∧
      ((build_sections (bf.map (frames_to_time sr hop)) labels).getD 0 dfltSection).start = 0 ∧
      (∀ i, i + 1 < (build_sections (bf.map (frames_to_time sr hop)) labels).length →
        ((build_sections (bf.map (frames_to_time sr hop)) labels).getD i dfltSection).end_ =
          ((build_sections (bf.map (frames_to_time sr hop)) labels).getD (i + 1) dfltSection).start) ∧
      |((build_sections (bf.map (frames_to_time sr hop)) labels).getLast?.getD dfltSection).end_ -
          duration| ≤ tol := by
    intro bf h1 h2 h3
    obtain ⟨a, b, c, d⟩ := build_sections_facts sr hop bf labels nFrames h1 h2 h3
    exact ⟨a, b, c, by rw [d]; exact hdur⟩
  cases agg with
  | some bounds =>
    refine key (primary_bound_frames bounds nFrames) ?_ ?_ ?_
    · simp [primary_bound_frames]
    · rfl
    · rw [primary_bound_frames, ← List.cons_append, List.getLast?_concat]
  | none =>
    refine key (fallback_bound_frames nFrames num_sections) ?_ ?_ ?_
    · simp [fallback_bound_frames]
      omega
    · rw [fallback_bound_frames, getD_map_range _ 0 (by omega)]
      simp
    · rw [fallback_bound_frames, map_range_getLast? _ (by omega)]
      congr 1
      rw [Nat.add_sub_cancel, Nat.mul_div_cancel_left nFrames (by omega)]

/-- Witness for C7 at a concrete primary-path input: sample rate 1, hop 1,
4 frames, boundary 2, duration 4, tolerance 0. -/
theorem analyze_structure_contiguous_witness :
    analyze_structure 1 1 4 2 (some [2]) (fun _ => "verse") ≠ [] ∧
    ((analyze_structure 1 1 4 2 (some [2]) (fun _ => "verse")).getD 0 dfltSection).start = 0 ∧
    (∀ i, i + 1 < (analyze_structure 1 1 4 2 (some [2]) (fun _ => "verse")).length →
      ((analyze_structure 1 1 4 2 (some [2]) (fun _ => "verse")).getD i dfltSection).end_ =
        ((analyze_structure 1 1 4 2 (some [2]) (fun _ => "verse")).getD (i + 1) dfltSection).start) ∧
    |((analyze_structure 1 1 4 2 (some [2]) (fun _ => "verse")).getLast?.getD dfltSection).end_ -
        4| ≤ 0 :=
  analyze_structure_contiguous 1 1 4 2 (some [2]) (fun _ => "verse") 4 0
    (by norm_num) (by norm_num [frames_to_time])

/-! ### C9 — energy section labels -/

/-- States of the energy state machine of `detect_energy_sections`. -/
inductive EState where
  | normal
  | high
  | low
deriving DecidableEq, Repr

/-- Label attached when a state is left (`structure_analyzer.py` lines 229
and 241): `'drop' if state == 'high' else 'breakdown' if state == 'low'
else 'verse'`. -/
def label_of : EState → String
  | EState.high => "drop"
  | EState.low => "breakdown"
  | EState.normal => "verse"

/-- Transition rule of the loop body (`structure_analyzer.py` lines
216-225): enter `high` above 0.7, `low` below 0.3, return to `normal`
from `high`/`low` inside the band `[0.3, 0.7]`. -/
def next_state (cur : EState) (v : ℚ) : EState :=
  if v > 7 / 10 ∧ cur ≠ EState.high then EState.high
  else if v < 3 / 10 ∧ cur ≠ EState.low then EState.low
  else if 3 / 10 ≤ v ∧ v ≤ 7 / 10 then
    (if cur = EState.high ∨ cur = EState.low then EState.normal else cur)
  else cur

/-- Loop body of `detect_energy_sections` as a fold step over the frame
index: on a state change, emit the section being closed (labelled by the
state being left) and open a new one. -/
def energy_step (sr hop : ℚ) (vals : List ℚ)
    (acc : List Section × ℕ × EState) (i : ℕ) : List Section × ℕ × EState :=
  let v := vals.getD i 0
  let ns := next_state acc.2.2 v
  if ns ≠ acc.2.2 then
    (if acc.2.1 ≠ i then
        acc.1 ++ [{ start := frames_to_time sr hop acc.2.1
                    end_ := frames_to_time sr hop i
                    label := label_of acc.2.2
                    color := section_color (label_of acc.2.2) }]
      else acc.1,
      i, ns)
  else acc

/-- The scan of `detect_energy_sections` over frames `1 .. len-1`
(`structure_analyzer.py` lines 213-237): emitted sections, open-section
start frame, current state. -/
def energy_scan (sr hop : ℚ) (vals : List ℚ) : List Section × ℕ × EState :=
  ((List.range vals.length).drop 1).foldl (energy_step sr hop vals)
    ([], 0, EState.normal)

/-- Embedding of `StructureAnalyzer.detect_energy_sections` over the smoothed,
normalized energy envelope `vals` (`structure_analyzer.py` lines
207-248), with the trailing section appended when the final open
interval is nonempty. -/
def detect_energy_sections (sr hop : ℚ) (vals : List ℚ) : List Section :=
  let res := energy_scan sr hop vals
  if res.2.1 < vals.length - 1 then
    res.1 ++ [{ start := frames_to_time sr hop res.2.1
                end_ := frames_to_time sr hop (vals.length - 1)
                label := label_of res.2.2
                color := section_color (label_of res.2.2) }]
  else res.1

/-- One fold step preserves the invariant that every emitted label is
`drop`, `breakdown` or `verse`. -/
theorem energy_step_labels (sr hop : ℚ) (vals : List ℚ)
    (acc : List Section × ℕ × EState) (i : ℕ)
    (h : ∀ s ∈ acc.1, s.label = "drop" ∨ s.label = "breakdown" ∨ s.label = "verse") :
    ∀ s ∈ (energy_step sr hop vals acc i).1,
      s.label = "drop" ∨ s.label = "breakdown" ∨ s.label = "verse" := by
  intro s hs
  simp only [energy_step] at hs
  split_ifs at hs with h1 h2
  · rcases List.mem_append.mp hs with hmem | hmem
    · exact h s hmem
    · rw [List.mem_singleton] at hmem
      subst hmem
      cases acc.2.2 <;> simp [label_of]
  · exact h s hs
  · exact h s hs

/-- Every section emitted by the scan has one of the three labels. -/
theorem energy_scan_labels (sr hop : ℚ) (vals : List ℚ) :
    ∀ s ∈ (energy_scan sr hop vals).1,
      s.label = "drop" ∨ s.label = "breakdown" ∨ s.label = "verse" := by
  rw [energy_scan]
  generalize (List.range vals.length).drop 1 = idxs
  suffices hinv : ∀ (l : List ℕ) (acc : List Section × ℕ × EState),
      (∀ s ∈ acc.1, s.label = "drop" ∨ s.label = "breakdown" ∨ s.label = "verse") →
      ∀ s ∈ (l.foldl (energy_step sr hop vals) acc).1,
        s.label = "drop" ∨ s.label = "breakdown" ∨ s.label = "verse" by
    exact hinv idxs ([], 0, EState.normal) (by simp)
  intro l
  induction l with
  | nil => intro acc hacc; simpa using hacc
  | cons a t ih =>
    intro acc hacc
    rw [List.foldl_cons]
    exact ih _ (energy_step_labels sr hop vals acc a hacc)

/-- Claim C9: every section emitted by `detect_energy_sections` carries a
label in `{drop, breakdown, verse}`, and the label of a closed (or final)
section is determined by the state being left: `high` gives `drop`, `low`
gives `breakdown`, `normal` gives `verse`. -/
theorem detect_energy_sections_labels (sr hop : ℚ) (vals : List ℚ) :
    (∀ s ∈ detect_energy_sections sr hop vals,
      s.label = "drop" ∨ s.label = "breakdown" ∨ s.label = "verse") ∧
    label_of EState.high = "drop" ∧
    label_of EState.low = "breakdown" ∧
    label_of EState.normal = "verse" := by
  refine ⟨?_, rfl, rfl, rfl⟩
  intro s hs
  rw [detect_energy_sections] at hs
  split_ifs at hs with h1
  · rcases List.mem_append.mp hs with hmem | hmem
    · exact energy_scan_labels sr hop vals s hmem
    · rw [List.mem_singleton] at hmem
      subst hmem
      cases (energy_scan sr hop vals).2.2 <;> simp [label_of]
  · exact energy_scan_labels sr hop vals s hs

/-- Witness for C9 on the concrete envelope `[0, 1, 0]`, whose first
emitted section (closing the initial `normal` state) is labelled. -/
theorem detect_energy_sections_labels_witness :
    ((detect_energy_sections 1 1 [0, 1, 0]).getD 0 dfltSection).label = "drop" ∨
    ((detect_energy_sections 1 1 [0, 1, 0]).getD 0 dfltSection).label = "breakdown" ∨
    ((detect_energy_sections 1 1 [0, 1, 0]).getD 0 dfltSection).label = "verse" := by
  have hval : detect_energy_sections 1 1 [0, 1, 0] =
      [{ start := 0, end_ := 1, label := "verse", color := "#2196F3" },
       { start := 1, end_ := 2, label := "drop", color := "#F44336" }] := by
    norm_num [detect_energy_sections, energy_scan, energy_step, next_state, label_of,
      section_color, SECTION_COLORS, frames_to_time, List.range_succ]
    simp +decide
  exact (detect_energy_sections_labels 1 1 [0, 1, 0]).1 _ (by rw [hval]; simp)

end BeatGrid
